import Mathlib

/-!
Shallow embedding of the dec-utils formatting library (src/src/lib.rs) and of
the observable behavior of the three external crates it builds on:
rust_decimal (the Decimal value type), separator (thousands grouping of an
unsigned integer) and rusty_money (currency rendering for USD).

Machine integers are modelled as Nat; the 96-bit mantissa bound and the
maximal scale of rust_decimal are carried in a well-formedness predicate.
Fallible steps of the Rust code (the two unwrap calls and the byte-slice
index in dec_to_separated_string) are modelled with Option, so that a panic
of the Rust code would appear as a none result.
-/

namespace DecUtils

/-- Little-endian base-10 digits of a natural number, computed with structural
fuel so that terms reduce by kernel evaluation; the digit list of 0 is empty. -/
def natDigitsGo : Nat → Nat → List Nat
  | _, 0 => []
  | 0, _ + 1 => []
  | fuel + 1, n + 1 => (n + 1) % 10 :: natDigitsGo fuel ((n + 1) / 10)

/-- Little-endian base-10 digits of a natural number. -/
def natDigitsLE (n : Nat) : List Nat :=
  natDigitsGo n n

/-- Little-endian digit list used for rendering: 0 is rendered as the single
digit 0, matching the decimal string form of 0. -/
def digitsLE0 (n : Nat) : List Nat :=
  if n = 0 then [0] else natDigitsLE n

/-- Little-endian character digits of a natural number. -/
def digitCharsLE (n : Nat) : List Char :=
  (digitsLE0 n).map Nat.digitChar

/-- Most-significant-first character string of a natural number, i.e. its
plain decimal digit string. -/
def natCharsMSD (n : Nat) : List Char :=
  (digitCharsLE n).reverse

/-- Chunks of at most three elements taken from the front of a list, with
structural fuel; used on little-endian digit lists, so a chunk holds three
digits counted from the least significant end. -/
def chunk3Go {α : Type _} : Nat → List α → List (List α)
  | _, [] => []
  | 0, a :: l => [a :: l]
  | fuel + 1, a :: l => (a :: l.take 2) :: chunk3Go fuel (l.drop 2)

/-- Chunks of at most three elements taken from the front of a list. -/
def chunk3 {α : Type _} (l : List α) : List (List α) :=
  chunk3Go l.length l

/-- Joins blocks of characters with a comma between adjacent blocks. -/
def joinComma : List (List Char) → List Char
  | [] => []
  | [b] => b
  | b :: b2 :: bs => b ++ ',' :: joinComma (b2 :: bs)

/-- The blocks of at most three digit characters, most significant block
first, that the grouping routine joins with commas. -/
def sepBlocks (n : Nat) : List (List Char) :=
  ((chunk3 (digitCharsLE n)).map List.reverse).reverse

/-- Models the separator crate for unsigned integers: the decimal digit
string of the number with a comma inserted every three digits counting from
the right. -/
def separated_string (n : Nat) : String :=
  ⟨joinComma (sepBlocks n)⟩

/-- Splits a character list at every occurrence of the given character. -/
def splitOnChar (sep : Char) : List Char → List (List Char)
  | [] => [[]]
  | c :: cs =>
    if c = sep then
      [] :: splitOnChar sep cs
    else
      match splitOnChar sep cs with
      | [] => [[c]]
      | b :: bs => (c :: b) :: bs

/-- Model of rust_decimal Decimal: a sign flag, an unsigned mantissa and a
scale, the number of stored fractional digits.  The value denoted is
(-1)^neg * m / 10^scale. -/
structure Decimal where
  neg : Bool
  m : Nat
  scale : Nat
  deriving DecidableEq

/-- Well-formedness of a rust_decimal value: the mantissa fits in 96 bits
and the scale is at most 28. -/
def Decimal.WF (d : Decimal) : Prop :=
  d.m < 2 ^ 96 ∧ d.scale ≤ 28

instance (d : Decimal) : Decidable d.WF := by
  unfold Decimal.WF
  infer_instance

/-- Model of Decimal::is_sign_negative: the raw sign flag. -/
def Decimal.is_sign_negative (d : Decimal) : Bool := d.neg

/-- Model of Decimal::abs: clears the sign flag. -/
def Decimal.abs (d : Decimal) : Decimal := ⟨false, d.m, d.scale⟩

/-- Model of Decimal::round_dp, rounding strategy MidpointNearestEven.  A
zero value only clamps its scale; a value whose scale is at most dp is
returned unchanged; otherwise the mantissa is divided by a power of ten
with a tie going to the even quotient. -/
def Decimal.round_dp (d : Decimal) (dp : Nat) : Decimal :=
  if d.m = 0 then ⟨d.neg, 0, min d.scale dp⟩
  else if d.scale ≤ dp then d
  else
    let f := 10 ^ (d.scale - dp)
    let q := d.m / f
    let r := d.m % f
    let q2 :=
      if f < 2 * r then q + 1
      else if 2 * r < f then q
      else if q % 2 = 0 then q else q + 1
    ⟨d.neg, q2, dp⟩

/-- Model of Decimal::trunc: drops the stored fractional digits. -/
def Decimal.trunc (d : Decimal) : Decimal :=
  ⟨d.neg, d.m / 10 ^ d.scale, 0⟩

/-- Model of Decimal::fract, that is self minus self.trunc(); a zero result
is positive, as for rust_decimal subtraction. -/
def Decimal.fract (d : Decimal) : Decimal :=
  ⟨d.neg && !(d.m % 10 ^ d.scale == 0), d.m % 10 ^ d.scale, d.scale⟩

/-- Model of ToPrimitive::to_u128 on a Decimal: fails on a negative sign
flag or an integral value that does not fit in 128 bits, otherwise returns
the truncated integral value. -/
def Decimal.to_u128 (d : Decimal) : Option Nat :=
  if d.neg then none
  else if d.m / 10 ^ d.scale < 2 ^ 128 then some (d.m / 10 ^ d.scale) else none

/-- The digit string of a mantissa zero padded on the left until it is
longer than the scale, so that at least one digit precedes the point. -/
def padTo (m scale : Nat) : List Char :=
  List.replicate (scale + 1 - (natCharsMSD m).length) '0' ++ natCharsMSD m

/-- Digit string of a non-negative decimal magnitude: the mantissa digits
with a decimal point inserted scale digits from the right, zero padded so
that at least one digit precedes the point; no point when the scale is 0. -/
def renderAbs (m scale : Nat) : List Char :=
  if scale = 0 then natCharsMSD m
  else
    (padTo m scale).take ((padTo m scale).length - scale) ++
      '.' :: (padTo m scale).drop ((padTo m scale).length - scale)

/-- Model of the Display form of a Decimal (to_string): optional minus sign
followed by the digit string of the magnitude at the stored scale. -/
def Decimal.toString (d : Decimal) : String :=
  ⟨(if d.neg then ['-'] else []) ++ renderAbs d.m d.scale⟩

/-- Numeric value of an ascii digit character. -/
def charDigit (c : Char) : Option Nat :=
  if c.isDigit then some (c.toNat - 48) else none

/-- Folds a most-significant-first run of digit characters into a number;
fails on the first character that is not a digit. -/
def parseDigitsGo : Nat → List Char → Option Nat
  | acc, [] => some acc
  | acc, c :: cs =>
    match charDigit c with
    | some d => parseDigitsGo (acc * 10 + d) cs
    | none => none

/-- Strips one leading minus sign, reporting whether it was present. -/
def stripSign : List Char → Bool × List Char
  | c :: t => if c = '-' then (true, t) else (false, c :: t)
  | [] => (false, [])

/-- Model of Decimal::from_str on the canonical shapes this library feeds
it: an optional leading minus, integral digits, optionally followed by a
point and fractional digits; anything else, a mantissa overflowing 96 bits
or a scale above 28 is rejected. -/
def parseDecimal (s : String) : Option Decimal :=
  let signed : Bool × List Char := stripSign s.data
  match splitOnChar '.' signed.2 with
  | [ints] =>
    if ints = [] then none
    else
      match parseDigitsGo 0 ints with
      | some v => if v < 2 ^ 96 then some ⟨signed.1, v, 0⟩ else none
      | none => none
  | [ints, fracs] =>
    if ints = [] then none
    else if fracs = [] then none
    else
      match parseDigitsGo 0 (ints ++ fracs) with
      | some v =>
        if v < 2 ^ 96 then
          if fracs.length ≤ 28 then some ⟨signed.1, v, fracs.length⟩ else none
        else none
      | none => none
  | _ => none

/-- The range check rusty_money Money::from_str performs on the signed
integral segment of the amount with i32::from_str: the truncated magnitude
must fit in an i32, whose range is asymmetric around zero (one more value
on the negative side). -/
def integralFitsI32 (d : Decimal) : Prop :=
  d.m / 10 ^ d.scale ≤ if d.neg = true then 2147483648 else 2147483647

instance (d : Decimal) : Decidable (integralFitsI32 d) := by
  unfold integralFitsI32
  infer_instance

/-- The validations rusty_money Money::from_str performs with i32::from_str
on the two amount segments: the signed integral segment and the unsigned
fractional digit segment must each fit in an i32. -/
def i32SegmentsOk (d : Decimal) : Prop :=
  integralFitsI32 d ∧ d.m % 10 ^ d.scale ≤ 2147483647

instance (d : Decimal) : Decidable (i32SegmentsOk d) := by
  unfold i32SegmentsOk
  infer_instance

/-- Model of rusty_money Money::from_str with the USD currency: digit
separators are stripped, the text must parse as a decimal amount, and both
amount segments must pass the crate's i32::from_str range validation;
otherwise the InvalidAmount error is reported. -/
def money_from_str (s : String) : Except String Decimal :=
  match parseDecimal ⟨s.data.filter (fun c => c != ',')⟩ with
  | some d => if i32SegmentsOk d then Except.ok d else Except.error "Invalid amount"
  | none => Except.error "Invalid amount"

/-- Model of the Display form of a rusty_money Money amount for USD: the
amount rounded to two fractional digits, a minus sign for strictly negative
amounts, the dollar sign, the grouped units and exactly two cent digits. -/
def money_display (d : Decimal) : String :=
  let r := d.round_dp 2
  let units := r.m / 10 ^ r.scale
  let cents := r.m % 10 ^ r.scale * 10 ^ (2 - r.scale)
  (if r.neg && !(r.m == 0) then "-" else "") ++
    ("$" ++ separated_string units ++ "." ++ ⟨[Nat.digitChar (cents / 10), Nat.digitChar (cents % 10)]⟩)

/-- Embedding of dec_to_string_or_empty from src/src/lib.rs. -/
def dec_to_string_or_empty (d : Option Decimal) : String :=
  match d with
  | some q => q.toString
  | none => ""

/-- The body of dec_to_usd_string after the rounded value has been printed:
the match on the Money::from_str result, with the parenthesized diagnostic
on the error path. -/
def usd_from_string (v_string : String) : String :=
  match money_from_str v_string with
  | Except.ok v => money_display v
  | Except.error e => "(" ++ v_string ++ " " ++ e ++ ")"

/-- Embedding of dec_to_usd_string from src/src/lib.rs. -/
def dec_to_usd_string (v : Decimal) : String :=
  usd_from_string (v.round_dp 2).toString

/-- The fractional suffix appended by dec_to_separated_string: empty when
dp is zero, otherwise the fract() rendering with its first character (the
integral 0) stripped, keeping the decimal point. -/
def fracPart (v : Decimal) (dp : Nat) : String :=
  if dp = 0 then "" else ⟨((v.abs.round_dp dp).fract.toString.data).drop 1⟩

/-- Embedding of dec_to_separated_string from src/src/lib.rs.  The byte
slice into the fract() string and the two unwrap calls are modelled with
Option: a none result corresponds to a panic of the Rust code. -/
def dec_to_separated_string (v : Decimal) (dp : Nat) : Option String :=
  let negative := v.is_sign_negative
  let rounded := v.abs.round_dp dp
  let integral_part := rounded.trunc
  let fractional_part := rounded.fract
  let fractional_part_string := fractional_part.toString
  let fp : Option String :=
    if dp = 0 then some ""
    else
      match fractional_part_string.data with
      | [] => none
      | _ :: rest => some ⟨rest⟩
  match fp, integral_part.to_u128 with
  | some fractional_part_str, some ip =>
    some ((if negative then "-" else "") ++ separated_string ip ++
      (if fractional_part_str.data = [] then "" else fractional_part_str))
  | _, _ => none

/-! ### Digit list lemmas -/

theorem natDigitsGo_eq_digits : ∀ fuel n, n ≤ fuel → natDigitsGo fuel n = Nat.digits 10 n := by
  intro fuel
  induction fuel with
  | zero =>
    intro n hn
    cases n with
    | zero => simp [natDigitsGo]
    | succ k => omega
  | succ fuel ih =>
    intro n hn
    cases n with
    | zero => simp [natDigitsGo]
    | succ k =>
      have hdiv : (k + 1) / 10 < k + 1 := Nat.div_lt_self (Nat.succ_pos k) (by norm_num)
      rw [show natDigitsGo (fuel + 1) (k + 1) =
            (k + 1) % 10 :: natDigitsGo fuel ((k + 1) / 10) from rfl]
      rw [ih ((k + 1) / 10) (by omega)]
      rw [Nat.digits_def' (by norm_num : (1 : Nat) < 10) (Nat.succ_pos k)]

theorem natDigitsLE_eq (n : Nat) : natDigitsLE n = Nat.digits 10 n :=
  natDigitsGo_eq_digits n n le_rfl

theorem digitsLE0_lt {n d : Nat} (hd : d ∈ digitsLE0 n) : d < 10 := by
  unfold digitsLE0 at hd
  split at hd
  · simp at hd
    omega
  · rw [natDigitsLE_eq] at hd
    exact Nat.digits_lt_base (by norm_num) hd

theorem ofDigits_digitsLE0 (n : Nat) : Nat.ofDigits 10 (digitsLE0 n) = n := by
  unfold digitsLE0
  split
  · simp [Nat.ofDigits]
    omega
  · rw [natDigitsLE_eq]
    exact_mod_cast Nat.ofDigits_digits 10 n

theorem digitsLE0_ne_nil (n : Nat) : digitsLE0 n ≠ [] := by
  unfold digitsLE0
  split
  · simp
  · rw [natDigitsLE_eq]
    exact Nat.digits_ne_nil_iff_ne_zero.mpr (by assumption)

theorem digitChar_isDigit : ∀ d < 10, (Nat.digitChar d).isDigit = true := by decide

theorem charDigit_digitChar : ∀ d < 10, charDigit (Nat.digitChar d) = some d := by decide

theorem isDigit_ne {c : Char} (h : c.isDigit = true) : c ≠ ',' ∧ c ≠ '.' ∧ c ≠ '-' := by
  refine ⟨?_, ?_, ?_⟩ <;> · intro he; subst he; exact absurd h (by decide)

theorem mem_digitCharsLE_isDigit {n : Nat} {c : Char} (hc : c ∈ digitCharsLE n) :
    c.isDigit = true := by
  unfold digitCharsLE at hc
  rcases List.mem_map.mp hc with ⟨d, hd, rfl⟩
  exact digitChar_isDigit d (digitsLE0_lt hd)

theorem digitCharsLE_ne_nil (n : Nat) : digitCharsLE n ≠ [] := by
  unfold digitCharsLE
  rw [Ne, List.map_eq_nil_iff]
  exact digitsLE0_ne_nil n

theorem natCharsMSD_ne_nil (n : Nat) : natCharsMSD n ≠ [] := by
  unfold natCharsMSD
  rw [Ne, List.reverse_eq_nil_iff]
  exact digitCharsLE_ne_nil n

theorem natCharsMSD_length (n : Nat) : (natCharsMSD n).length = (digitsLE0 n).length := by
  simp [natCharsMSD, digitCharsLE]

theorem mem_natCharsMSD_isDigit {n : Nat} {c : Char} (hc : c ∈ natCharsMSD n) :
    c.isDigit = true :=
  mem_digitCharsLE_isDigit (List.mem_reverse.mp hc)

theorem natCharsMSD_eq_map (n : Nat) :
    natCharsMSD n = ((digitsLE0 n).reverse).map Nat.digitChar := by
  unfold natCharsMSD digitCharsLE
  exact (List.map_reverse Nat.digitChar (digitsLE0 n)).symm

/-! ### Chunking lemmas -/

theorem chunk3Go_congr {α : Type _} :
    ∀ f g (l : List α), l.length ≤ f → l.length ≤ g → chunk3Go f l = chunk3Go g l := by
  intro f
  induction f with
  | zero =>
    intro g l hf hg
    cases l with
    | nil => cases g <;> rfl
    | cons a t => simp at hf
  | succ f ih =>
    intro g l hf hg
    cases l with
    | nil => cases g <;> rfl
    | cons a t =>
      cases g with
      | zero => simp at hg
      | succ g =>
        show (a :: t.take 2) :: chunk3Go f (t.drop 2) = (a :: t.take 2) :: chunk3Go g (t.drop 2)
        congr 1
        apply ih
        · simp at hf ⊢
          omega
        · simp at hg ⊢
          omega

theorem chunk3_nil {α : Type _} : chunk3 ([] : List α) = [] := rfl

theorem chunk3_cons {α : Type _} (a : α) (t : List α) :
    chunk3 (a :: t) = (a :: t.take 2) :: chunk3 (t.drop 2) := by
  have h1 : chunk3 (a :: t) = (a :: t.take 2) :: chunk3Go t.length (t.drop 2) := rfl
  rw [h1]
  congr 1
  apply chunk3Go_congr
  · simp
  · exact le_rfl

theorem chunk3Go_flatten {α : Type _} :
    ∀ f (l : List α), l.length ≤ f → (chunk3Go f l).flatten = l := by
  intro f
  induction f with
  | zero =>
    intro l hf
    cases l with
    | nil => rfl
    | cons a t => simp at hf
  | succ f ih =>
    intro l hf
    cases l with
    | nil => rfl
    | cons a t =>
      show ((a :: t.take 2) :: chunk3Go f (t.drop 2)).flatten = a :: t
      rw [List.flatten_cons, ih (t.drop 2) (by simp at hf ⊢; omega)]
      show a :: (t.take 2 ++ t.drop 2) = a :: t
      rw [List.take_append_drop]

theorem chunk3_flatten {α : Type _} (l : List α) : (chunk3 l).flatten = l :=
  chunk3Go_flatten l.length l le_rfl

theorem chunk3_ne_nil {α : Type _} (l : List α) (h : l ≠ []) : chunk3 l ≠ [] := by
  cases l with
  | nil => exact absurd rfl h
  | cons a t =>
    rw [chunk3_cons]
    simp

theorem chunk3Go_mem {α : Type _} :
    ∀ f (l c : List α), l.length ≤ f → c ∈ chunk3Go f l → c ≠ [] ∧ c.length ≤ 3 := by
  intro f
  induction f with
  | zero =>
    intro l c hf hc
    cases l with
    | nil => simp [chunk3Go] at hc
    | cons a t => simp at hf
  | succ f ih =>
    intro l c hf hc
    cases l with
    | nil => simp [chunk3Go] at hc
    | cons a t =>
      have hc2 : c ∈ (a :: t.take 2) :: chunk3Go f (t.drop 2) := hc
      rcases List.mem_cons.mp hc2 with h | h
      · subst h
        refine ⟨List.cons_ne_nil _ _, ?_⟩
        simp [List.length_take]
      · exact ih (t.drop 2) c (by simp at hf ⊢; omega) h

theorem chunk3_mem {α : Type _} (l c : List α) (hc : c ∈ chunk3 l) :
    c ≠ [] ∧ c.length ≤ 3 :=
  chunk3Go_mem l.length l c le_rfl hc

theorem chunk3Go_length {α : Type _} :
    ∀ f (l : List α), l.length ≤ f → (chunk3Go f l).length = (l.length + 2) / 3 := by
  intro f
  induction f with
  | zero =>
    intro l hf
    cases l with
    | nil => simp [chunk3Go]
    | cons a t => simp at hf
  | succ f ih =>
    intro l hf
    cases l with
    | nil => simp [chunk3Go]
    | cons a t =>
      show ((a :: t.take 2) :: chunk3Go f (t.drop 2)).length = _
      rw [List.length_cons, ih (t.drop 2) (by simp at hf ⊢; omega)]
      simp only [List.length_drop, List.length_cons]
      omega

theorem chunk3_length {α : Type _} (l : List α) : (chunk3 l).length = (l.length + 2) / 3 :=
  chunk3Go_length l.length l le_rfl

theorem chunk3Go_ne_nil {α : Type _} (f : Nat) (l : List α) (h : l ≠ []) :
    chunk3Go f l ≠ [] := by
  cases l with
  | nil => exact absurd rfl h
  | cons a t =>
    cases f with
    | zero => simp [chunk3Go]
    | succ f => simp [chunk3Go]

theorem chunk3Go_dropLast {α : Type _} :
    ∀ f (l c : List α), l.length ≤ f → c ∈ (chunk3Go f l).dropLast → c.length = 3 := by
  intro f
  induction f with
  | zero =>
    intro l c hf hc
    cases l with
    | nil => simp [chunk3Go] at hc
    | cons a t => simp at hf
  | succ f ih =>
    intro l c hf hc
    cases l with
    | nil => simp [chunk3Go] at hc
    | cons a t =>
      have hc2 : c ∈ ((a :: t.take 2) :: chunk3Go f (t.drop 2)).dropLast := hc
      by_cases hd : t.drop 2 = []
      · rw [hd] at hc2
        simp [chunk3Go] at hc2
      · have hne := chunk3Go_ne_nil f (t.drop 2) hd
        rcases List.exists_cons_of_ne_nil hne with ⟨x, xs, hx⟩
        rw [hx, List.dropLast_cons₂] at hc2
        rcases List.mem_cons.mp hc2 with h | h
        · subst h
          have ht : 2 < t.length := by
            by_contra hle
            exact hd (List.drop_eq_nil_iff.mpr (by omega))
          simp [List.length_take]
          omega
        · rw [← hx] at h
          exact ih (t.drop 2) c (by simp at hf ⊢; omega) h

theorem chunk3_dropLast {α : Type _} (l c : List α) (hc : c ∈ (chunk3 l).dropLast) :
    c.length = 3 :=
  chunk3Go_dropLast l.length l c le_rfl hc

/-! ### Comma joining and splitting lemmas -/

theorem mem_joinComma (bs : List (List Char)) (x : Char) (hx : x ∈ joinComma bs) :
    x = ',' ∨ ∃ b ∈ bs, x ∈ b := by
  induction bs with
  | nil => simp [joinComma] at hx
  | cons b rest ih =>
    cases rest with
    | nil =>
      refine Or.inr ⟨b, by simp, ?_⟩
      exact hx
    | cons b2 bs2 =>
      have hx2 : x ∈ b ++ ',' :: joinComma (b2 :: bs2) := hx
      rcases List.mem_append.mp hx2 with h | h
      · exact Or.inr ⟨b, by simp, h⟩
      · rcases List.mem_cons.mp h with h | h
        · exact Or.inl h
        · rcases ih h with h | ⟨b', hb', hxb⟩
          · exact Or.inl h
          · exact Or.inr ⟨b', by simp [hb'], hxb⟩

theorem joinComma_count (bs : List (List Char)) (h : ∀ b ∈ bs, b.count ',' = 0) :
    (joinComma bs).count ',' = bs.length - 1 := by
  induction bs with
  | nil => simp [joinComma]
  | cons b rest ih =>
    cases rest with
    | nil =>
      have : joinComma [b] = b := rfl
      rw [this]
      simpa using h b (by simp)
    | cons b2 bs2 =>
      have e : joinComma (b :: b2 :: bs2) = b ++ ',' :: joinComma (b2 :: bs2) := rfl
      rw [e, List.count_append, List.count_cons]
      rw [ih (fun x hx => h x (List.mem_cons_of_mem _ hx))]
      rw [h b (by simp)]
      simp

theorem joinComma_ne_nil (bs : List (List Char)) (h0 : bs ≠ []) (h : ∀ b ∈ bs, b ≠ []) :
    joinComma bs ≠ [] := by
  cases bs with
  | nil => exact absurd rfl h0
  | cons b rest =>
    cases rest with
    | nil =>
      have e : joinComma [b] = b := rfl
      rw [e]
      exact h b (by simp)
    | cons b2 bs2 =>
      have e : joinComma (b :: b2 :: bs2) = b ++ ',' :: joinComma (b2 :: bs2) := rfl
      rw [e]
      simp

theorem joinComma_filter (bs : List (List Char)) (h : ∀ b ∈ bs, b.count ',' = 0) :
    (joinComma bs).filter (fun c => c != ',') = bs.flatten := by
  induction bs with
  | nil => simp [joinComma]
  | cons b rest ih =>
    have hb : b.filter (fun c => c != ',') = b := by
      apply List.filter_eq_self.mpr
      intro a ha
      have hane : a ≠ ',' := by
        intro he
        subst he
        have hc := h b (by simp)
        rw [List.count_eq_zero] at hc
        exact hc ha
      simpa using hane
    cases rest with
    | nil =>
      have e : joinComma [b] = b := rfl
      rw [e, hb]
      simp
    | cons b2 bs2 =>
      have e : joinComma (b :: b2 :: bs2) = b ++ ',' :: joinComma (b2 :: bs2) := rfl
      rw [e, List.filter_append, List.filter_cons]
      rw [ih (fun x hx => h x (List.mem_cons_of_mem _ hx)), hb]
      simp [List.flatten_cons]

theorem splitOnChar_of_count_zero (sep : Char) (l : List Char) (h : l.count sep = 0) :
    splitOnChar sep l = [l] := by
  induction l with
  | nil => rfl
  | cons c cs ih =>
    rw [List.count_eq_zero] at h
    have hc : ¬ c = sep := fun he => h (by simp [he])
    have hcs : cs.count sep = 0 :=
      List.count_eq_zero.mpr fun hm => h (List.mem_cons_of_mem _ hm)
    simp only [splitOnChar]
    rw [if_neg hc, ih hcs]

theorem splitOnChar_append (sep : Char) (a t : List Char) (h : a.count sep = 0) :
    splitOnChar sep (a ++ sep :: t) = a :: splitOnChar sep t := by
  induction a with
  | nil =>
    simp [splitOnChar]
  | cons c cs ih =>
    rw [List.count_eq_zero] at h
    have hc : ¬ c = sep := fun he => h (by simp [he])
    have hcs : cs.count sep = 0 :=
      List.count_eq_zero.mpr fun hm => h (List.mem_cons_of_mem _ hm)
    rw [List.cons_append]
    simp only [splitOnChar]
    rw [if_neg hc, ih hcs]

theorem splitOnChar_joinComma (bs : List (List Char)) (h0 : bs ≠ [])
    (h : ∀ b ∈ bs, b.count ',' = 0) : splitOnChar ',' (joinComma bs) = bs := by
  induction bs with
  | nil => exact absurd rfl h0
  | cons b rest ih =>
    cases rest with
    | nil =>
      have e : joinComma [b] = b := rfl
      rw [e, splitOnChar_of_count_zero ',' b (h b (by simp))]
    | cons b2 bs2 =>
      have e : joinComma (b :: b2 :: bs2) = b ++ ',' :: joinComma (b2 :: bs2) := rfl
      rw [e, splitOnChar_append ',' b _ (h b (by simp))]
      rw [ih (by simp) (fun x hx => h x (List.mem_cons_of_mem _ hx))]

/-! ### Separated string lemmas -/

theorem flatten_map_reverse {α : Type _} (L : List (List α)) :
    ((L.map List.reverse).reverse).flatten = L.flatten.reverse := by
  induction L with
  | nil => rfl
  | cons c L ih =>
    simp only [List.map_cons, List.reverse_cons, List.flatten_append, List.flatten_cons,
      List.reverse_append, ih]
    simp

theorem sepBlocks_ne_nil (n : Nat) : sepBlocks n ≠ [] := by
  unfold sepBlocks
  rw [Ne, List.reverse_eq_nil_iff, List.map_eq_nil_iff]
  exact chunk3_ne_nil _ (digitCharsLE_ne_nil n)

theorem mem_sepBlocks {n : Nat} {b : List Char} (hb : b ∈ sepBlocks n) :
    b ≠ [] ∧ b.length ≤ 3 ∧ b.count ',' = 0 := by
  unfold sepBlocks at hb
  rw [List.mem_reverse] at hb
  rcases List.mem_map.mp hb with ⟨c, hc, rfl⟩
  obtain ⟨hne, hlen⟩ := chunk3_mem _ c hc
  refine ⟨by simpa using hne, by simpa using hlen, ?_⟩
  rw [List.count_eq_zero]
  intro hmem
  rw [List.mem_reverse] at hmem
  have hflat : ',' ∈ (chunk3 (digitCharsLE n)).flatten := List.mem_flatten.mpr ⟨c, hc, hmem⟩
  rw [chunk3_flatten] at hflat
  exact absurd (mem_digitCharsLE_isDigit hflat) (by decide)

theorem sepBlocks_flatten (n : Nat) : (sepBlocks n).flatten = natCharsMSD n := by
  unfold sepBlocks
  rw [flatten_map_reverse, chunk3_flatten]
  rfl

theorem sepBlocks_length (n : Nat) : (sepBlocks n).length = ((natCharsMSD n).length + 2) / 3 := by
  unfold sepBlocks
  rw [List.length_reverse, List.length_map, chunk3_length]
  simp [natCharsMSD]

theorem sepBlocks_tail {n : Nat} {b : List Char} (hb : b ∈ (sepBlocks n).tail) :
    b.length = 3 := by
  unfold sepBlocks at hb
  rw [List.tail_reverse, List.mem_reverse, ← List.map_dropLast] at hb
  rcases List.mem_map.mp hb with ⟨c, hc, rfl⟩
  rw [List.length_reverse]
  exact chunk3_dropLast _ c hc

theorem separated_string_data (n : Nat) :
    (separated_string n).data = joinComma (sepBlocks n) := rfl

theorem separated_string_ne_nil (n : Nat) : (separated_string n).data ≠ [] := by
  rw [separated_string_data]
  exact joinComma_ne_nil _ (sepBlocks_ne_nil n) (fun b hb => (mem_sepBlocks hb).1)

theorem separated_string_chars {n : Nat} {x : Char} (hx : x ∈ (separated_string n).data) :
    x.isDigit = true ∨ x = ',' := by
  rw [separated_string_data] at hx
  rcases mem_joinComma _ x hx with h | ⟨b, hb, hxb⟩
  · exact Or.inr h
  · left
    have hflat : x ∈ (sepBlocks n).flatten := List.mem_flatten.mpr ⟨b, hb, hxb⟩
    rw [sepBlocks_flatten] at hflat
    exact mem_natCharsMSD_isDigit hflat

theorem separated_string_count_comma (n : Nat) :
    (separated_string n).data.count ',' = ((natCharsMSD n).length - 1) / 3 := by
  rw [separated_string_data]
  rw [joinComma_count _ (fun b hb => (mem_sepBlocks hb).2.2)]
  rw [sepBlocks_length]
  have h1 : (natCharsMSD n) ≠ [] := natCharsMSD_ne_nil n
  have h2 : 1 ≤ (natCharsMSD n).length := by
    cases h : natCharsMSD n with
    | nil => exact absurd h h1
    | cons a t => simp [h]
  omega

theorem separated_string_filter (n : Nat) :
    (separated_string n).data.filter (fun c => c != ',') = natCharsMSD n := by
  rw [separated_string_data]
  rw [joinComma_filter _ (fun b hb => (mem_sepBlocks hb).2.2), sepBlocks_flatten]

theorem separated_string_split (n : Nat) :
    splitOnChar ',' (separated_string n).data = sepBlocks n := by
  rw [separated_string_data]
  exact splitOnChar_joinComma _ (sepBlocks_ne_nil n) (fun b hb => (mem_sepBlocks hb).2.2)

theorem separated_string_no_dot (n : Nat) : (separated_string n).data.count '.' = 0 := by
  rw [List.count_eq_zero]
  intro h
  rcases separated_string_chars h with h2 | h2
  · exact absurd h2 (by decide)
  · exact absurd h2 (by decide)

theorem separated_string_exists_cons (n : Nat) :
    ∃ c t, (separated_string n).data = c :: t ∧ c ≠ '-' := by
  rcases List.exists_cons_of_ne_nil (separated_string_ne_nil n) with ⟨c, t, h⟩
  refine ⟨c, t, h, ?_⟩
  have hc : c ∈ (separated_string n).data := by
    rw [h]
    simp
  rcases separated_string_chars hc with h2 | h2
  · exact (isDigit_ne h2).2.2
  · subst h2
    decide

/-! ### Decimal operation lemmas -/

theorem natCharsMSD_length_pos (n : Nat) : 1 ≤ (natCharsMSD n).length := by
  cases h : natCharsMSD n with
  | nil => exact absurd h (natCharsMSD_ne_nil n)
  | cons a t => simp [h]

theorem abs_neg_eq (v : Decimal) : v.abs.neg = false := rfl

theorem abs_WF {v : Decimal} (h : v.WF) : v.abs.WF := h

theorem trunc_neg (d : Decimal) : d.trunc.neg = d.neg := rfl

theorem trunc_scale (d : Decimal) : d.trunc.scale = 0 := rfl

theorem trunc_m (d : Decimal) : d.trunc.m = d.m / 10 ^ d.scale := rfl

theorem round_dp_neg (d : Decimal) (dp : Nat) : (d.round_dp dp).neg = d.neg := by
  unfold Decimal.round_dp
  split
  · rfl
  · split
    · rfl
    · rfl

theorem rounded_neg (v : Decimal) (dp : Nat) : (v.abs.round_dp dp).neg = false := by
  rw [round_dp_neg]
  rfl

theorem round_dp_WF {d : Decimal} (dp : Nat) (h : d.WF) : (d.round_dp dp).WF := by
  obtain ⟨hm, hs⟩ := h
  have h96 : (2 : Nat) ^ 96 = 79228162514264337593543950336 := by norm_num
  by_cases h0 : d.m = 0
  · have e : d.round_dp dp = ⟨d.neg, 0, min d.scale dp⟩ := by
      simp [Decimal.round_dp, h0]
    rw [e]
    exact ⟨by rw [h96]; norm_num, by show min d.scale dp ≤ 28; omega⟩
  · by_cases h1 : d.scale ≤ dp
    · have e : d.round_dp dp = d := by
        simp [Decimal.round_dp, h0, h1]
      rw [e]
      exact ⟨hm, hs⟩
    · have e : d.round_dp dp =
          ⟨d.neg,
            if 10 ^ (d.scale - dp) < 2 * (d.m % 10 ^ (d.scale - dp)) then
              d.m / 10 ^ (d.scale - dp) + 1
            else if 2 * (d.m % 10 ^ (d.scale - dp)) < 10 ^ (d.scale - dp) then
              d.m / 10 ^ (d.scale - dp)
            else if d.m / 10 ^ (d.scale - dp) % 2 = 0 then d.m / 10 ^ (d.scale - dp)
            else d.m / 10 ^ (d.scale - dp) + 1,
            dp⟩ := by
        simp [Decimal.round_dp, h0, h1]
      rw [e]
      have hf : (10 : Nat) ≤ 10 ^ (d.scale - dp) := by
        calc (10 : Nat) = 10 ^ 1 := by norm_num
        _ ≤ 10 ^ (d.scale - dp) := Nat.pow_le_pow_right (by norm_num) (by omega)
      have hq : d.m / 10 ^ (d.scale - dp) ≤ d.m / 10 := Nat.div_le_div_left hf (by norm_num)
      have hq1 : d.m / 10 + 1 < 2 ^ 96 := by
        rw [h96] at hm ⊢
        omega
      have key : ∀ Q : Nat, Q ≤ d.m / 10 → Q + 1 < 2 ^ 96 ∧ Q < 2 ^ 96 := by
        intro Q hQ
        constructor <;> omega
      refine ⟨?_, by show dp ≤ 28; omega⟩
      show (if _ then _ else _) < 2 ^ 96
      split
      · exact (key _ hq).1
      · split
        · exact (key _ hq).2
        · split
          · exact (key _ hq).2
          · exact (key _ hq).1

theorem round_dp_half_even (d : Decimal) (dp : Nat) (h1 : dp < d.scale)
    (h2 : 2 * (d.m % 10 ^ (d.scale - dp)) = 10 ^ (d.scale - dp)) :
    (d.round_dp dp).scale = dp ∧ (d.round_dp dp).m % 2 = 0 ∧
      ((d.round_dp dp).m = d.m / 10 ^ (d.scale - dp) ∨
        (d.round_dp dp).m = d.m / 10 ^ (d.scale - dp) + 1) := by
  have hfpos : 0 < 10 ^ (d.scale - dp) := pow_pos (by norm_num) _
  have hm0 : ¬ d.m = 0 := by
    intro h0
    rw [h0] at h2
    simp at h2
    omega
  have h1' : ¬ d.scale ≤ dp := by omega
  have e : d.round_dp dp =
      ⟨d.neg,
        if 10 ^ (d.scale - dp) < 2 * (d.m % 10 ^ (d.scale - dp)) then
          d.m / 10 ^ (d.scale - dp) + 1
        else if 2 * (d.m % 10 ^ (d.scale - dp)) < 10 ^ (d.scale - dp) then
          d.m / 10 ^ (d.scale - dp)
        else if d.m / 10 ^ (d.scale - dp) % 2 = 0 then d.m / 10 ^ (d.scale - dp)
        else d.m / 10 ^ (d.scale - dp) + 1,
        dp⟩ := by
    simp [Decimal.round_dp, hm0, h1']
  rw [e]
  rw [if_neg (by omega), if_neg (by omega)]
  by_cases hq : d.m / 10 ^ (d.scale - dp) % 2 = 0
  · rw [if_pos hq]
    exact ⟨rfl, hq, Or.inl rfl⟩
  · rw [if_neg hq]
    refine ⟨rfl, ?_, Or.inr rfl⟩
    show (d.m / 10 ^ (d.scale - dp) + 1) % 2 = 0
    omega

theorem padTo_chars {m s : Nat} {y : Char} (hy : y ∈ padTo m s) : y.isDigit = true := by
  unfold padTo at hy
  rcases List.mem_append.mp hy with h | h
  · rw [List.eq_of_mem_replicate h]
    decide
  · exact mem_natCharsMSD_isDigit h

theorem padTo_length_ge (m s : Nat) : s + 1 ≤ (padTo m s).length := by
  unfold padTo
  rw [List.length_append, List.length_replicate]
  have h2 := natCharsMSD_length_pos m
  omega

theorem padTo_ne_nil (m s : Nat) : padTo m s ≠ [] := by
  intro h
  have := padTo_length_ge m s
  rw [h] at this
  simp at this

theorem take_append_head {α : Type _} (P r : List α) (i : Nat) (hi : 1 ≤ i) (hP : P ≠ []) :
    ∃ c t, P.take i ++ r = c :: t ∧ c ∈ P := by
  rcases List.exists_cons_of_ne_nil hP with ⟨p, pt, rfl⟩
  rcases Nat.exists_eq_add_of_le hi with ⟨j, hj⟩
  subst hj
  refine ⟨p, pt.take j ++ r, ?_, by simp⟩
  rw [show 1 + j = j + 1 by omega, List.take_succ_cons, List.cons_append]

theorem renderAbs_head (m s : Nat) : ∃ c t, renderAbs m s = c :: t ∧ c.isDigit = true := by
  unfold renderAbs
  split
  · rcases List.exists_cons_of_ne_nil (natCharsMSD_ne_nil m) with ⟨c, t, h⟩
    refine ⟨c, t, h, ?_⟩
    apply mem_natCharsMSD_isDigit
    rw [h]
    simp
  · rename_i hs
    have hge := padTo_length_ge m s
    rcases take_append_head (padTo m s) ('.' :: (padTo m s).drop ((padTo m s).length - s))
        ((padTo m s).length - s) (by omega) (padTo_ne_nil m s) with ⟨c, t, hct, hc⟩
    exact ⟨c, t, hct, padTo_chars hc⟩

theorem renderAbs_chars {m s : Nat} {x : Char} (hx : x ∈ renderAbs m s) :
    x.isDigit = true ∨ x = '.' := by
  unfold renderAbs at hx
  split at hx
  · exact Or.inl (mem_natCharsMSD_isDigit hx)
  · rcases List.mem_append.mp hx with h | h
    · exact Or.inl (padTo_chars (List.mem_of_mem_take h))
    · rcases List.mem_cons.mp h with h | h
      · exact Or.inr h
      · exact Or.inl (padTo_chars (List.mem_of_mem_drop h))

theorem toString_data (d : Decimal) :
    (Decimal.toString d).data = (if d.neg then ['-'] else []) ++ renderAbs d.m d.scale := rfl

theorem toString_chars {d : Decimal} {x : Char} (hx : x ∈ (Decimal.toString d).data) :
    x.isDigit = true ∨ x = '.' ∨ x = '-' := by
  rw [toString_data] at hx
  rcases List.mem_append.mp hx with h | h
  · right; right
    revert h
    split
    · simp
    · simp
  · rcases renderAbs_chars h with h2 | h2
    · exact Or.inl h2
    · exact Or.inr (Or.inl h2)

theorem fract_neg_false {d : Decimal} (h : d.neg = false) : d.fract.neg = false := by
  unfold Decimal.fract
  rw [h]
  rfl

theorem fract_scale_zero {d : Decimal} (hn : d.neg = false) (hs : d.scale = 0) :
    d.fract = ⟨false, 0, 0⟩ := by
  unfold Decimal.fract
  rw [hn, hs]
  simp [Nat.mod_one]

theorem to_u128_eq {d : Decimal} (hn : d.neg = false) (hs : d.scale = 0)
    (hm : d.m < 2 ^ 128) : d.to_u128 = some d.m := by
  unfold Decimal.to_u128
  rw [hn, hs, pow_zero, Nat.div_one]
  rw [if_neg (by simp), if_pos hm]

theorem to_u128_some {d : Decimal} {ip : Nat} (h : d.to_u128 = some ip) (hs : d.scale = 0) :
    ip = d.m := by
  unfold Decimal.to_u128 at h
  rw [hs] at h
  split at h
  · exact absurd h (by simp)
  · split at h
    · rw [pow_zero, Nat.div_one] at h
      exact (Option.some.injEq _ _ ▸ h).symm
    · exact absurd h (by simp)

theorem if_data_nil (f : String) : (if f.data = [] then "" else f) = f := by
  split
  · rename_i h
    cases f with
    | mk dat =>
      have : dat = [] := h
      subst this
      rfl
  · rfl

/-! ### Structure of the separated formatter output -/

theorem fracPart_zero (v : Decimal) : fracPart v 0 = "" := rfl

theorem fracPart_scale_zero {v : Decimal} {dp : Nat} (h : (v.abs.round_dp dp).scale = 0) :
    fracPart v dp = "" := by
  unfold fracPart
  split
  · rfl
  · rw [fract_scale_zero (rounded_neg v dp) h]
    rfl

theorem if_mk_nil (t : List Char) : (if t = [] then ("" : String) else ⟨t⟩) = ⟨t⟩ := by
  split
  · rename_i h
    subst h
    rfl
  · rfl

theorem sep_shape {v : Decimal} {dp : Nat} {s : String}
    (h : dec_to_separated_string v dp = some s) :
    s = (if v.is_sign_negative then "-" else "") ++
      separated_string ((v.abs.round_dp dp).trunc.m) ++ fracPart v dp := by
  simp only [dec_to_separated_string] at h
  cases hu : (v.abs.round_dp dp).trunc.to_u128 with
  | none =>
    rw [hu] at h
    exfalso
    by_cases hdp : dp = 0
    · rw [if_pos hdp] at h
      simp at h
    · rw [if_neg hdp] at h
      cases hdata : (v.abs.round_dp dp).fract.toString.data with
      | nil =>
        rw [hdata] at h
        simp at h
      | cons c t =>
        rw [hdata] at h
        simp at h
  | some ip =>
    have hip : ip = (v.abs.round_dp dp).trunc.m := to_u128_some hu (trunc_scale _)
    rw [hu] at h
    by_cases hdp : dp = 0
    · subst hdp
      rw [if_pos rfl] at h
      simp only [Option.some.injEq] at h
      rw [← h, hip, fracPart_zero]
      simp
    · rw [if_neg hdp] at h
      rcases renderAbs_head (v.abs.round_dp dp).fract.m (v.abs.round_dp dp).fract.scale with
        ⟨c, t, hct, _⟩
      have hdata : (v.abs.round_dp dp).fract.toString.data = c :: t := by
        rw [toString_data, fract_neg_false (rounded_neg v dp)]
        simpa using hct
      rw [hdata] at h
      simp only [Option.some.injEq] at h
      have hfp : fracPart v dp = ⟨t⟩ := by
        unfold fracPart
        rw [if_neg hdp, hdata]
        rfl
      rw [← h, hip, hfp, if_data_nil]

/-! ### Claim theorems for the separated formatter -/

/-- C1 counterexample: the input -0.4 with dp = 0 renders as "-0", refuting
the claim that a value whose magnitude rounds to zero never carries a sign. -/
theorem sep_neg_zero_cex : dec_to_separated_string ⟨true, 4, 1⟩ 0 = some "-0" := by decide

/-- C1 (amended): dec_to_separated_string reattaches the sign from the
original value's sign flag unconditionally: the output starts with a minus
exactly when the input's sign flag is negative, even when the rounded
magnitude is zero. -/
theorem sep_sign_from_flag (v : Decimal) (dp : Nat) (s : String)
    (h : dec_to_separated_string v dp = some s) :
    s.data.head? = some '-' ↔ v.is_sign_negative = true := by
  have hs := sep_shape h
  rcases separated_string_exists_cons ((v.abs.round_dp dp).trunc.m) with ⟨c, t, hct, hcm⟩
  rw [hs]
  rw [String.data_append, String.data_append]
  cases hneg : v.is_sign_negative with
  | false => simp [hneg, hct, hcm]
  | true => simp [hneg]

/-- C1 witness: at the concrete input -0.4 with dp = 0 the hypothesis of
sep_sign_from_flag holds and the output indeed starts with a minus. -/
theorem sep_sign_from_flag_witness :
    dec_to_separated_string ⟨true, 4, 1⟩ 0 = some "-0" ∧
      ("-0" : String).data.head? = some '-' :=
  ⟨by decide, (sep_sign_from_flag ⟨true, 4, 1⟩ 0 "-0" (by decide)).mpr rfl⟩

/-- C2: the separated formatter is total on well-formed decimals: for every
value and every dp it returns a string; the modelled panic paths (the two
unwrap calls and the byte-slice index) are unreachable. -/
theorem sep_total (v : Decimal) (dp : Nat) (h : v.WF) :
    (dec_to_separated_string v dp).isSome = true := by
  have hWFr : (v.abs.round_dp dp).WF := round_dp_WF dp (abs_WF h)
  have htm : (v.abs.round_dp dp).trunc.m < 2 ^ 128 := by
    rw [trunc_m]
    have h1 : (v.abs.round_dp dp).m < 2 ^ 96 := hWFr.1
    have h2 := Nat.div_le_self (v.abs.round_dp dp).m (10 ^ (v.abs.round_dp dp).scale)
    have h3 : (2 : Nat) ^ 96 < 2 ^ 128 := by norm_num
    omega
  have hu : (v.abs.round_dp dp).trunc.to_u128 = some ((v.abs.round_dp dp).trunc.m) := by
    apply to_u128_eq
    · rw [trunc_neg, rounded_neg]
    · exact trunc_scale _
    · exact htm
  simp only [dec_to_separated_string]
  rw [hu]
  by_cases hdp : dp = 0
  · rw [if_pos hdp]
    rfl
  · rw [if_neg hdp]
    rcases renderAbs_head (v.abs.round_dp dp).fract.m (v.abs.round_dp dp).fract.scale with
      ⟨c, t, hct, _⟩
    have hdata : (v.abs.round_dp dp).fract.toString.data = c :: t := by
      rw [toString_data, fract_neg_false (rounded_neg v dp)]
      simpa using hct
    rw [hdata]
    rfl

/-- C2 witness: sep_total at the concrete input 123456.126 with dp = 2. -/
theorem sep_total_witness : (dec_to_separated_string ⟨false, 123456126, 3⟩ 2).isSome = true :=
  sep_total ⟨false, 123456126, 3⟩ 2 (by decide)

/-- C4: rounding carry: 999.9 at dp 0 renders "1,000" and -999.9 renders
"-1,000"; in general the grouped integral part of the output is that of the
post-rounding value trunc(round_dp(abs v, dp)). -/
theorem rounding_carry :
    dec_to_separated_string ⟨false, 9999, 1⟩ 0 = some "1,000" ∧
    dec_to_separated_string ⟨true, 9999, 1⟩ 0 = some "-1,000" ∧
    ∀ (v : Decimal) (dp : Nat) (s : String), dec_to_separated_string v dp = some s →
      ∃ t, s = (if v.is_sign_negative then "-" else "") ++
        separated_string ((v.abs.round_dp dp).trunc.m) ++ t :=
  ⟨by decide, by decide, fun v dp s h => ⟨fracPart v dp, sep_shape h⟩⟩

/-- C4 witness: the general conjunct of rounding_carry at 999.9, dp 0. -/
theorem rounding_carry_witness :
    ∃ t, "1,000" = (if (⟨false, 9999, 1⟩ : Decimal).is_sign_negative then "-" else "") ++
      separated_string (((⟨false, 9999, 1⟩ : Decimal).abs.round_dp 0).trunc.m) ++ t :=
  rounding_carry.2.2 ⟨false, 9999, 1⟩ 0 "1,000" (by decide)

/-- C9: with dp = 0 the output has no decimal point and no fractional
digits: 1.1 renders "1", 1 renders "1", -1 renders "-1". -/
theorem dp_zero_no_fraction :
    (∀ (v : Decimal) (s : String), dec_to_separated_string v 0 = some s →
      s.data.count '.' = 0) ∧
    dec_to_separated_string ⟨false, 11, 1⟩ 0 = some "1" ∧
    dec_to_separated_string ⟨false, 1, 0⟩ 0 = some "1" ∧
    dec_to_separated_string ⟨true, 1, 0⟩ 0 = some "-1" := by
  refine ⟨?_, by decide, by decide, by decide⟩
  intro v s h
  rw [sep_shape h, fracPart_zero]
  rw [String.data_append, String.data_append, List.count_append, List.count_append]
  have h1 : (if v.is_sign_negative then ("-" : String) else "").data.count '.' = 0 := by
    split <;> decide
  rw [h1, separated_string_no_dot]
  rfl

/-- C9 witness: the general conjunct at the concrete input 1.1, dp 0. -/
theorem dp_zero_no_fraction_witness : ("1" : String).data.count '.' = 0 :=
  dp_zero_no_fraction.1 ⟨false, 11, 1⟩ "1" (by decide)

/-- C10: when the rounded absolute value has scale 0, the output has no
decimal point and no zero padding even for dp above 0: 1 at dp 2 renders
"1", not "1.00". -/
theorem scale_zero_no_point :
    (∀ (v : Decimal) (dp : Nat) (s : String), (v.abs.round_dp dp).scale = 0 →
      dec_to_separated_string v dp = some s → s.data.count '.' = 0) ∧
    dec_to_separated_string ⟨false, 1, 0⟩ 2 = some "1" := by
  refine ⟨?_, by decide⟩
  intro v dp s hsc h
  rw [sep_shape h, fracPart_scale_zero hsc]
  rw [String.data_append, String.data_append, List.count_append, List.count_append]
  have h1 : (if v.is_sign_negative then ("-" : String) else "").data.count '.' = 0 := by
    split <;> decide
  rw [h1, separated_string_no_dot]
  rfl

/-- C10 witness: the general conjunct at the concrete input 7 with dp 5. -/
theorem scale_zero_no_point_witness : ("7" : String).data.count '.' = 0 :=
  scale_zero_no_point.1 ⟨false, 7, 0⟩ 5 "7" (by decide) (by decide)

/-! ### Digit parsing lemmas -/

theorem foldl_eq_ofDigits (L : List Nat) (acc : Nat) :
    L.foldl (fun a d => a * 10 + d) acc = acc * 10 ^ L.length + Nat.ofDigits 10 L.reverse := by
  induction L generalizing acc with
  | nil => simp [Nat.ofDigits]
  | cons d t ih =>
    rw [List.foldl_cons, ih, List.reverse_cons]
    have happ : Nat.ofDigits 10 (t.reverse ++ [d]) =
        Nat.ofDigits 10 t.reverse + 10 ^ t.reverse.length * Nat.ofDigits 10 [d] := by
      exact_mod_cast Nat.ofDigits_append
    have hsingle : Nat.ofDigits 10 [d] = d := by
      simp [Nat.ofDigits]
    rw [happ, hsingle, List.length_reverse, List.length_cons]
    ring

theorem ofDigits_replicate_zero (k : Nat) : Nat.ofDigits 10 (List.replicate k 0) = 0 := by
  induction k with
  | zero => rfl
  | succ k ih => simp [List.replicate_succ, Nat.ofDigits, ih]

theorem parseDigitsGo_map (ds : List Nat) (h : ∀ d ∈ ds, d < 10) (acc : Nat) :
    parseDigitsGo acc (ds.map Nat.digitChar) =
      some (ds.foldl (fun a d => a * 10 + d) acc) := by
  induction ds generalizing acc with
  | nil => rfl
  | cons d t ih =>
    simp only [List.map_cons, parseDigitsGo]
    rw [charDigit_digitChar d (h d (by simp))]
    exact ih (fun x hx => h x (by simp [hx])) (acc * 10 + d)

theorem parseDigitsGo_padded (k m : Nat) :
    parseDigitsGo 0 (List.replicate k '0' ++ natCharsMSD m) = some m := by
  have hlt : ∀ d ∈ List.replicate k 0 ++ (digitsLE0 m).reverse, d < 10 := by
    intro d hd
    rcases List.mem_append.mp hd with h | h
    · rw [List.eq_of_mem_replicate h]
      norm_num
    · exact digitsLE0_lt (List.mem_reverse.mp h)
  have hrep : List.replicate k '0' = (List.replicate k 0).map Nat.digitChar := by
    rw [List.map_replicate]
    rfl
  rw [hrep, natCharsMSD_eq_map, ← List.map_append]
  rw [parseDigitsGo_map _ hlt 0]
  congr 1
  rw [foldl_eq_ofDigits]
  rw [List.reverse_append, List.reverse_reverse, List.reverse_replicate]
  have happ : Nat.ofDigits 10 (digitsLE0 m ++ List.replicate k 0) =
      Nat.ofDigits 10 (digitsLE0 m) + 10 ^ (digitsLE0 m).length *
        Nat.ofDigits 10 (List.replicate k 0) := by
    exact_mod_cast Nat.ofDigits_append
  rw [happ, ofDigits_replicate_zero, ofDigits_digitsLE0]
  simp

/-! ### Print and parse roundtrip -/

theorem stripSign_minus (t : List Char) : stripSign ('-' :: t) = (true, t) := by
  simp [stripSign]

theorem stripSign_no_minus {c : Char} (t : List Char) (h : c ≠ '-') :
    stripSign (c :: t) = (false, c :: t) := by
  simp [stripSign, h]

theorem natCharsMSD_no_dot (m : Nat) : (natCharsMSD m).count '.' = 0 := by
  rw [List.count_eq_zero]
  intro h
  exact absurd (mem_natCharsMSD_isDigit h) (by decide)

theorem padTo_take_no_dot (m s i : Nat) : ((padTo m s).take i).count '.' = 0 := by
  rw [List.count_eq_zero]
  intro h
  exact absurd (padTo_chars (List.mem_of_mem_take h)) (by decide)

theorem padTo_drop_no_dot (m s i : Nat) : ((padTo m s).drop i).count '.' = 0 := by
  rw [List.count_eq_zero]
  intro h
  exact absurd (padTo_chars (List.mem_of_mem_drop h)) (by decide)

theorem renderAbs_zero (m : Nat) : renderAbs m 0 = natCharsMSD m := by
  unfold renderAbs
  rw [if_pos rfl]

theorem renderAbs_pos (m s : Nat) (h : ¬ s = 0) :
    renderAbs m s = (padTo m s).take ((padTo m s).length - s) ++
      '.' :: (padTo m s).drop ((padTo m s).length - s) := by
  unfold renderAbs
  rw [if_neg h]

theorem stripSign_toString (d : Decimal) :
    stripSign (Decimal.toString d).data = (d.neg, renderAbs d.m d.scale) := by
  rw [toString_data]
  cases hneg : d.neg with
  | true =>
    show stripSign ('-' :: renderAbs d.m d.scale) = (true, renderAbs d.m d.scale)
    exact stripSign_minus _
  | false =>
    show stripSign ([] ++ renderAbs d.m d.scale) = (false, renderAbs d.m d.scale)
    rw [List.nil_append]
    rcases renderAbs_head d.m d.scale with ⟨c, t, hct, hcd⟩
    rw [hct]
    exact stripSign_no_minus _ (isDigit_ne hcd).2.2

theorem parse_toString {d : Decimal} (h : d.WF) : parseDecimal (Decimal.toString d) = some d := by
  obtain ⟨hm, hsc⟩ := h
  simp only [parseDecimal]
  rw [stripSign_toString]
  dsimp only
  by_cases hs0 : d.scale = 0
  · rw [hs0, renderAbs_zero, splitOnChar_of_count_zero '.' _ (natCharsMSD_no_dot d.m)]
    dsimp only
    rw [if_neg (natCharsMSD_ne_nil d.m)]
    have hP : parseDigitsGo 0 (natCharsMSD d.m) = some d.m := by
      simpa using parseDigitsGo_padded 0 d.m
    rw [hP]
    dsimp only
    rw [if_pos hm, ← hs0]
  · have hge := padTo_length_ge d.m d.scale
    have hA : (padTo d.m d.scale).take ((padTo d.m d.scale).length - d.scale) ≠ [] := by
      intro hnil
      have hlen := congrArg List.length hnil
      rw [List.length_take] at hlen
      simp at hlen
      omega
    have hB : ((padTo d.m d.scale).drop ((padTo d.m d.scale).length - d.scale)).length
        = d.scale := by
      rw [List.length_drop]
      omega
    have hBne : (padTo d.m d.scale).drop ((padTo d.m d.scale).length - d.scale) ≠ [] := by
      intro hnil
      rw [hnil] at hB
      simp at hB
      exact hs0 hB.symm
    have hsplit : splitOnChar '.' (renderAbs d.m d.scale) =
        [(padTo d.m d.scale).take ((padTo d.m d.scale).length - d.scale),
          (padTo d.m d.scale).drop ((padTo d.m d.scale).length - d.scale)] := by
      rw [renderAbs_pos d.m d.scale hs0]
      rw [splitOnChar_append '.' _ _ (padTo_take_no_dot d.m d.scale _)]
      rw [splitOnChar_of_count_zero '.' _ (padTo_drop_no_dot d.m d.scale _)]
    have hparse : parseDigitsGo 0
        ((padTo d.m d.scale).take ((padTo d.m d.scale).length - d.scale) ++
          (padTo d.m d.scale).drop ((padTo d.m d.scale).length - d.scale)) = some d.m := by
      rw [List.take_append_drop]
      show parseDigitsGo 0 (padTo d.m d.scale) = some d.m
      unfold padTo
      exact parseDigitsGo_padded _ d.m
    rw [hsplit]
    dsimp only
    rw [if_neg hA, if_neg hBne, hparse]
    dsimp only
    rw [if_pos hm, hB, if_pos hsc]

theorem toString_filter (d : Decimal) :
    (Decimal.toString d).data.filter (fun c => c != ',') = (Decimal.toString d).data := by
  apply List.filter_eq_self.mpr
  intro a ha
  rcases toString_chars ha with h | h | h
  · simpa using (isDigit_ne h).1
  · subst h
    decide
  · subst h
    decide

theorem round_dp_scale_le (d : Decimal) (dp : Nat) : (d.round_dp dp).scale ≤ dp := by
  unfold Decimal.round_dp
  split
  · show min d.scale dp ≤ dp
    omega
  · split
    · assumption
    · show dp ≤ dp
      exact le_rfl

theorem frac_fits_i32 {d : Decimal} (h : d.scale ≤ 2) :
    d.m % 10 ^ d.scale ≤ 2147483647 := by
  have h1 : d.m % 10 ^ d.scale < 10 ^ d.scale := Nat.mod_lt _ (pow_pos (by norm_num) _)
  have h2 : (10 : Nat) ^ d.scale ≤ 10 ^ 2 := Nat.pow_le_pow_right (by norm_num) h
  have h3 : (10 : Nat) ^ 2 = 100 := by norm_num
  omega

theorem money_from_str_toString {d : Decimal} (h : d.WF) (hok : i32SegmentsOk d) :
    money_from_str (Decimal.toString d) = Except.ok d := by
  unfold money_from_str
  rw [toString_filter]
  rw [show (⟨(Decimal.toString d).data⟩ : String) = Decimal.toString d from rfl]
  rw [parse_toString h]
  show (if i32SegmentsOk d then Except.ok d else Except.error "Invalid amount") = Except.ok d
  exact if_pos hok

/-! ### Remaining claim theorems -/

/-- C3: both formatters round through round_dp with the half-to-even rule:
whenever the remainder at the rounding digit is exactly half, the resulting
mantissa is the even one of the two neighbors, and 123.125 renders as
$123.12 respectively 123.12 at two fractional digits. -/
theorem round_half_to_even :
    (∀ (d : Decimal) (dp : Nat), dp < d.scale →
      2 * (d.m % 10 ^ (d.scale - dp)) = 10 ^ (d.scale - dp) →
      (d.round_dp dp).scale = dp ∧ (d.round_dp dp).m % 2 = 0 ∧
        ((d.round_dp dp).m = d.m / 10 ^ (d.scale - dp) ∨
          (d.round_dp dp).m = d.m / 10 ^ (d.scale - dp) + 1)) ∧
    dec_to_usd_string ⟨false, 123125, 3⟩ = "$123.12" ∧
    dec_to_separated_string ⟨false, 123125, 3⟩ 2 = some "123.12" :=
  ⟨round_dp_half_even, by decide, by decide⟩

/-- C3 witness: the tie 123.125 at two digits rounds to the even mantissa. -/
theorem round_half_to_even_witness :
    ((⟨false, 123125, 3⟩ : Decimal).round_dp 2).m % 2 = 0 :=
  (round_half_to_even.1 ⟨false, 123125, 3⟩ 2 (by decide) (by decide)).2.1

/-- C5: grouping inserts exactly floor((digits - 1) / 3) commas, every block
after the leftmost has exactly 3 digits, the leftmost has 1 to 3 digits,
and removing the commas recovers the plain digit string. -/
theorem grouping_property (n : Nat) :
    (separated_string n).data.count ',' = ((natCharsMSD n).length - 1) / 3 ∧
    (∀ b ∈ splitOnChar ',' (separated_string n).data, b ≠ [] ∧ b.length ≤ 3) ∧
    (∀ b ∈ (splitOnChar ',' (separated_string n).data).tail, b.length = 3) ∧
    (splitOnChar ',' (separated_string n).data).flatten = natCharsMSD n ∧
    (separated_string n).data.filter (fun c => c != ',') = natCharsMSD n := by
  refine ⟨separated_string_count_comma n, ?_, ?_, ?_, separated_string_filter n⟩
  · rw [separated_string_split]
    exact fun b hb => ⟨(mem_sepBlocks hb).1, (mem_sepBlocks hb).2.1⟩
  · rw [separated_string_split]
    exact fun b hb => sepBlocks_tail hb
  · rw [separated_string_split]
    exact sepBlocks_flatten n

/-- C5 witness: grouping_property at 1234567, whose grouped form is
1,234,567: two commas and a trailing block 567 of length 3. -/
theorem grouping_property_witness :
    (separated_string 1234567).data.count ',' = ((natCharsMSD 1234567).length - 1) / 3 ∧
    (['5', '6', '7'] : List Char).length = 3 :=
  ⟨(grouping_property 1234567).1,
    (grouping_property 1234567).2.2.1 ['5', '6', '7'] (by decide)⟩

/-- C6 counterexample: for 2147483648, whose integral part overflows the
i32 validation the currency crate runs on the amount segments, the function
does not render a dollar string at all: it returns the parenthesized
InvalidAmount diagnostic, so the unconditional rendering claim is false. -/
theorem usd_overflow_cex :
    dec_to_usd_string ⟨false, 2147483648, 0⟩ = "(2147483648 Invalid amount)" ∧
    dec_to_usd_string ⟨false, 2147483648, 0⟩ ≠
      money_display ((⟨false, 2147483648, 0⟩ : Decimal).round_dp 2) := by
  constructor
  · decide
  · decide

/-- C6 (amended): for every well-formed decimal whose rounded integral part
passes the i32 range validation of the currency crate, dec_to_usd_string
renders the value rounded to two fractional digits through the modelled
Money display (dollar sign, grouping, exactly two cent digits), with the
worked examples 1.024, 1.026 and 1000.026; outside that range the
parenthesized diagnostic is returned instead. -/
theorem usd_format :
    (∀ v : Decimal, v.WF → integralFitsI32 (v.round_dp 2) →
      dec_to_usd_string v = money_display (v.round_dp 2)) ∧
    dec_to_usd_string ⟨false, 1024, 3⟩ = "$1.02" ∧
    dec_to_usd_string ⟨false, 1026, 3⟩ = "$1.03" ∧
    dec_to_usd_string ⟨false, 1000026, 3⟩ = "$1,000.03" := by
  refine ⟨?_, by decide, by decide, by decide⟩
  intro v hv hfits
  unfold dec_to_usd_string usd_from_string
  rw [money_from_str_toString (round_dp_WF 2 hv)
    ⟨hfits, frac_fits_i32 (round_dp_scale_le v 2)⟩]

/-- C6 witness: the general conjunct of usd_format at 1.024, discharging
the well-formedness and i32 range hypotheses there. -/
theorem usd_format_witness :
    dec_to_usd_string ⟨false, 1024, 3⟩ =
      money_display ((⟨false, 1024, 3⟩ : Decimal).round_dp 2) :=
  usd_format.1 ⟨false, 1024, 3⟩ (by decide) (by decide)

/-- C7: dec_to_usd_string never propagates an error: it is the total match
on the Money::from_str result, and on the error path it returns the
parenthesized diagnostic as a normal string. -/
theorem usd_error_fallback :
    (∀ v : Decimal, dec_to_usd_string v = usd_from_string (v.round_dp 2).toString) ∧
    ∀ (s e : String), money_from_str s = Except.error e →
      usd_from_string s = "(" ++ s ++ " " ++ e ++ ")" := by
  refine ⟨fun v => rfl, ?_⟩
  intro s e h
  unfold usd_from_string
  rw [h]

/-- C7 witness: on the unparsable text x the fallback produces the
diagnostic string. -/
theorem usd_error_fallback_witness :
    usd_from_string "x" = "(" ++ "x" ++ " " ++ "Invalid amount" ++ ")" :=
  usd_error_fallback.2 "x" "Invalid amount" rfl

/-- C8: dec_to_string_or_empty renders a present decimal with its canonical
Display form at the stored scale, and the absent case as the empty string. -/
theorem to_string_or_empty_spec :
    (∀ v : Decimal, dec_to_string_or_empty (some v) = v.toString) ∧
    dec_to_string_or_empty none = "" :=
  ⟨fun _ => rfl, rfl⟩

end DecUtils
